import Mathlib

/-!
Verification of the text-analysis core of `app.py` (VidText).

The five core functions — `clean_tokens`, `keyword_top_n`, `split_sentences`,
`score_sentences`, `extract_summary_bullets` — are shallowly embedded below.
Strings are Lean `String`s (lists of characters); Python character classes are
modelled over their ASCII range, which covers every character the source's
regular expressions distinguish.  The floating-point sentence score
`sum / len ** 0.8` is modelled by its exact real value; the sort comparison is
implemented by the equivalent integer comparison (proved equivalent below).
-/

/-- Whitespace characters, the ASCII range of Python's `\s` / `str.split()`. -/
def isSpaceChar (c : Char) : Bool :=
  c == ' ' || c == '\t' || c == '\n' || c == '\r' || c == '\x0b' || c == '\x0c'

/-- The apostrophe character. -/
def aposChar : Char := Char.ofNat 39

/-- Characters kept by the substitution `re.sub(r"[^A-Za-z0-9\s']", " ", text)`:
ASCII letters, digits, whitespace and the apostrophe. -/
def keptChar (c : Char) : Bool :=
  c.isAlpha || c.isDigit || isSpaceChar c || c == aposChar

/-- Step 1 of the tokenizer: replace every non-kept character by a space. -/
def subNonKept (l : List Char) : List Char :=
  l.map (fun c => if keptChar c then c else ' ')

/-- Helper for `splitWs`: accumulates the current word (reversed) while
scanning; whitespace flushes a nonempty accumulator. -/
def splitWsAux : List Char → List Char → List (List Char)
  | [], [] => []
  | [], acc => [acc.reverse]
  | c :: cs, acc =>
    if isSpaceChar c then
      match acc with
      | [] => splitWsAux cs []
      | _ :: _ => acc.reverse :: splitWsAux cs []
    else splitWsAux cs (c :: acc)

/-- Python `str.split()`: split on whitespace runs, no empty pieces. -/
def splitWs (l : List Char) : List (List Char) := splitWsAux l []

/-- The stopword set of `app.py`, transcribed verbatim (duplicates across the
two source lines are harmless for membership). -/
def STOPWORDS : List String :=
  ["a", "an", "and", "the", "this", "that", "those", "these", "to", "of",
   "for", "from", "on", "in", "with", "as", "at", "by", "it", "its", "be",
   "is", "are", "was", "were", "am", "been", "being", "do", "does", "did",
   "doing", "have", "has", "had", "having", "i", "you", "he", "she", "they",
   "we", "him", "her", "them", "us", "our", "your", "their", "my", "mine",
   "yours", "his", "hers", "theirs", "myself", "yourself", "themselves",
   "itself", "themselves", "ourselves",
   "about", "above", "after", "again", "against", "all", "also", "among",
   "around", "because", "before", "below", "between", "both", "but", "can",
   "cannot", "could", "did", "do", "does", "doing", "down", "during", "each",
   "few", "further", "here", "how", "if", "into", "more", "most", "no",
   "nor", "not", "only", "other", "out", "over", "own", "same", "should",
   "so", "some", "such", "than", "then", "there", "through", "too", "under",
   "until", "up", "very", "what", "when", "where", "which", "who", "whom",
   "why", "will", "would"]

/-- Python `w.strip("'")`: drop apostrophes from both ends. -/
def stripApos (w : List Char) : List Char :=
  ((w.dropWhile (· == aposChar)).reverse.dropWhile (· == aposChar)).reverse

/-- Step 3 of the tokenizer: `w.lower().strip("'")`. -/
def normWord (w : List Char) : List Char := stripApos (w.map Char.toLower)

/-- Python `w.isdigit()` (over the ASCII tokens this pipeline produces):
nonempty and made of digits only. -/
def pyIsDigit (w : String) : Bool := !(w.data.isEmpty) && w.data.all Char.isDigit

/-- Function `clean_tokens` from `app.py`:
```
text = re.sub(r"[^A-Za-z0-9\s']", " ", text)
words = [w.lower().strip("'") for w in text.split()]
return [w for w in words if w and w not in STOPWORDS and not w.isdigit()]
``` -/
def clean_tokens (text : String) : List String :=
  let words := (splitWs (subNonKept text.data)).map (fun w => String.mk (normWord w))
  words.filter (fun w => w ≠ "" && !(STOPWORDS.contains w) && !(pyIsDigit w))

/-- Sentence terminators `.` `!` `?`. -/
def punctChar (c : Char) : Bool := c == '.' || c == '!' || c == '?'

/-- Does the accumulator (reversed current piece) end right after a terminator? -/
def headPunct : List Char → Bool
  | [] => false
  | p :: _ => punctChar p

/-- Helper for `split_sentences`: scan the text, cutting at every whitespace
run whose preceding character is a sentence terminator (the lookbehind split
`re.split(r'(?<=[\.\!\?])\s+', text)`); the matched whitespace run is removed,
the terminator stays with the left piece.  The second argument is the current
piece (reversed) — `none` while the matched (maximal) whitespace run is being
consumed. -/
def splitPunctAux : List Char → Option (List Char) → List (List Char)
  | [], none => [[]]
  | [], some acc => [acc.reverse]
  | c :: cs, none =>
    if isSpaceChar c then splitPunctAux cs none else splitPunctAux cs (some [c])
  | c :: cs, some acc =>
    if isSpaceChar c && headPunct acc then
      acc.reverse :: splitPunctAux cs none
    else splitPunctAux cs (some (c :: acc))

/-- Python `str.strip()`: trim whitespace from both ends. -/
def stripChars (l : List Char) : List Char :=
  ((l.dropWhile isSpaceChar).reverse.dropWhile isSpaceChar).reverse

/-- Function `split_sentences` from `app.py`:
```
parts = re.split(r'(?<=[\.\!\?])\s+', text)
return [p.strip() for p in parts if p.strip()]
``` -/
def split_sentences (text : String) : List String :=
  ((splitPunctAux text.data (some [])).map (fun p => String.mk (stripChars p))).filter (· ≠ "")

/-- Stable insertion: place `a` before the first element `b` with `le a b`. -/
def insOrd (le : α → α → Bool) (a : α) : List α → List α
  | [] => [a]
  | b :: l => if le a b then a :: b :: l else b :: insOrd le a l

/-- Stable insertion sort; with `le x y` read as "x may precede y" this yields
the unique stable ordering, matching Python's stable `list.sort`. -/
def isort (le : α → α → Bool) : List α → List α
  | [] => []
  | a :: l => insOrd le a (isort le l)

/-- Distinct elements in order of first occurrence (Python `Counter` /
`dict` insertion order). -/
def firstSeenAux : List String → List String → List String
  | [], _ => []
  | t :: ts, seen =>
    if seen.contains t then firstSeenAux ts seen else t :: firstSeenAux ts (t :: seen)

/-- Distinct tokens in first-seen order. -/
def firstSeen (l : List String) : List String := firstSeenAux l []

/-- Comparison used by `Counter.most_common` (stable sort by count,
descending): `x` may precede `y` iff `count y ≤ count x`. -/
def countGe (x y : String × ℕ) : Bool := y.2 ≤ x.2

/-- Function `keyword_top_n` from `app.py`:
```
return Counter(clean_tokens(text)).most_common(n)
```
`Counter` tabulates counts keyed in first-seen order, and `most_common(n)` is
`sorted(items, key=count, reverse=True)[:n]` with a stable sort. -/
def keyword_top_n (text : String) (n : ℕ) : List (String × ℕ) :=
  let toks := clean_tokens text
  let items := (firstSeen toks).map (fun t => (t, toks.count t))
  (isort countGe items).take n

/-- Python `" ".join(sentences)`. -/
def joinSpace : List String → String
  | [] => ""
  | [s] => s
  | s :: t :: rest => s ++ " " ++ joinSpace (t :: rest)

/-- The pre-sort scored list of `score_sentences`: every sentence with a
nonempty tokenization, tagged with the pair (sum of global frequencies of its
tokens, number of its tokens), in original order. -/
def scoredPre (sentences : List String) : List (String × ℕ × ℕ) :=
  sentences.filterMap (fun s =>
    if clean_tokens s = [] then none
    else some (s, (((clean_tokens s).map
        (fun t => (clean_tokens (joinSpace sentences)).count t)).sum,
      (clean_tokens s).length)))

/-- Exact real value of the float score `a / b ** 0.8` computed by the code
for the data pair `(a, b)` = (frequency sum, token count). -/
noncomputable def scoreVal (p : ℕ × ℕ) : ℝ := (p.1 : ℝ) / (p.2 : ℝ) ^ (0.8 : ℝ)

/-- Sort comparison of `score_sentences` (stable descending by score):
`x` may precede `y` iff `scoreVal y.2 ≤ scoreVal x.2`, decided by the
equivalent integer comparison (see `scoreGe_iff_scoreVal`). -/
def scoreGe (x y : String × ℕ × ℕ) : Bool :=
  y.2.1 ^ 5 * x.2.2 ^ 4 ≤ x.2.1 ^ 5 * y.2.2 ^ 4

/-- Function `score_sentences` from `app.py`:
```
all_words = clean_tokens(" ".join(sentences))
if not all_words: return []
freqs = Counter(all_words)
scored = []
for s in sentences:
    toks = clean_tokens(s)
    if not toks: continue
    score = sum(freqs[t] for t in toks) / (len(toks) ** 0.8)
    scored.append((s, score))
scored.sort(key=lambda x: x[1], reverse=True)
return scored
```
The float score is carried as its defining data pair; the stable descending
sort is by the exact value of that score. -/
def score_sentences (sentences : List String) : List (String × ℕ × ℕ) :=
  if clean_tokens (joinSpace sentences) = [] then []
  else isort scoreGe (scoredPre sentences)

/-- Dedup signature: the lowercased first 40 characters (`s[:40].lower()`). -/
def sigOfL (l : List Char) : List Char := (l.take 40).map Char.toLower

/-- The selection walk of `extract_summary_bullets`: skip sentences outside
`[min_len, max_len]`, skip already-seen signatures, stop once `k ≤ |bullets|`
right after an acceptance. -/
def selectLoop (k min_len max_len : ℕ) :
    List (String × ℕ × ℕ) → List String → List (List Char) → List String
  | [], bullets, _ => bullets
  | (s, _) :: rest, bullets, used =>
    if s.length < min_len || max_len < s.length then
      selectLoop k min_len max_len rest bullets used
    else if used.contains (sigOfL s.data) then
      selectLoop k min_len max_len rest bullets used
    else
      let bullets' := bullets ++ ["• " ++ s]
      if k ≤ bullets'.length then bullets'
      else selectLoop k min_len max_len rest bullets' (sigOfL s.data :: used)

/-- Function `extract_summary_bullets` from `app.py`:
```
sents = split_sentences(text)
ranked = score_sentences(sents)
bullets, used = [], set()
for s, _ in ranked:
    if len(s) < min_len or len(s) > max_len: continue
    sig = s[:40].lower()
    if sig in used: continue
    bullets.append("• " + s)
    used.add(sig)
    if len(bullets) >= k: break
if not bullets and sents:
    bullets = ["• " + s for s in sents[:k]]
return bullets
``` -/
def extract_summary_bullets (text : String) (k : ℕ)
    (min_len : ℕ := 40) (max_len : ℕ := 220) : List String :=
  let sents := split_sentences text
  let bullets := selectLoop k min_len max_len (score_sentences sents) [] []
  if bullets = [] ∧ sents ≠ [] then (sents.take k).map (fun s => "• " ++ s) else bullets

/-- Spec step (1): replace every character not matching `[A-Za-z0-9\s']`
with a single space. -/
def specStep1 (text : String) : List Char :=
  text.data.map (fun c => if keptChar c then c else ' ')

/-- Spec step (2): split on whitespace runs. -/
def specStep2 (l : List Char) : List (List Char) := splitWs l

/-- Spec step (3): lowercase each piece and strip leading/trailing
apostrophes. -/
def specStep3 (ws : List (List Char)) : List (List Char) :=
  ws.map (fun w => stripApos (w.map Char.toLower))

/-- Spec step (4): drop a piece if, after stripping, it is empty, consists
entirely of digits, or is a member of the Stopword Set. -/
def specStep4 (ws : List (List Char)) : List String :=
  (ws.map String.mk).filter
    (fun w => !(w = "" || w.data.all Char.isDigit || STOPWORDS.contains w))

/-- The tokenizer algorithm exactly as the spec words it. -/
def tokenizeSpec (text : String) : List String :=
  specStep4 (specStep3 (specStep2 (specStep1 text)))

/-- The non-whitespace characters of a character list, in order. -/
def nonWs (l : List Char) : List Char := l.filter (fun c => !isSpaceChar c)

/-- The piece a scanning mode contributes: nothing while skipping whitespace,
the reversed accumulator otherwise. -/
def modeList : Option (List Char) → List Char
  | none => []
  | some acc => acc.reverse

/-- No `.`/`!`/`?` immediately followed by a whitespace character occurs in
the list. -/
def noPunctWsB : List Char → Bool
  | [] => true
  | [_] => true
  | a :: b :: rest => !(punctChar a && isSpaceChar b) && noPunctWsB (b :: rest)

/-- The dedup signature of a bullet's underlying sentence. -/
def bulletSig (b : String) : List Char := sigOfL (b.data.drop 2)

/-! ### Generic facts about the stable insertion sort -/

theorem insOrd_perm (le : α → α → Bool) (a : α) (l : List α) :
    (insOrd le a l).Perm (a :: l) := by
  induction l with
  | nil => simp [insOrd]
  | cons b t ih =>
    by_cases h : le a b
    · simp [insOrd, h]
    · simp only [insOrd, h, Bool.false_eq_true, if_false]
      exact (ih.cons b).trans (List.Perm.swap a b t)

theorem isort_perm (le : α → α → Bool) (l : List α) : (isort le l).Perm l := by
  induction l with
  | nil => simp [isort]
  | cons a t ih => exact (insOrd_perm le a (isort le t)).trans (ih.cons a)

theorem mem_insOrd (le : α → α → Bool) (a x : α) (l : List α) :
    x ∈ insOrd le a l ↔ x = a ∨ x ∈ l := by
  rw [(insOrd_perm le a l).mem_iff, List.mem_cons]

theorem mem_isort (le : α → α → Bool) (x : α) (l : List α) :
    x ∈ isort le l ↔ x ∈ l := (isort_perm le l).mem_iff

theorem insOrd_pairwise (le : α → α → Bool) (a : α) (l : List α)
    (hl : l.Pairwise (fun x y => le x y = true))
    (htot : ∀ b ∈ l, le a b = true ∨ le b a = true)
    (htrans : ∀ x y, x ∈ l → y ∈ l → le a x = true → le x y = true → le a y = true) :
    (insOrd le a l).Pairwise (fun x y => le x y = true) := by
  induction l with
  | nil => simp [insOrd]
  | cons b t ih =>
    rcases List.pairwise_cons.1 hl with ⟨hbt, ht⟩
    by_cases h : le a b
    · simp only [insOrd, h, if_true]
      refine List.pairwise_cons.2 ⟨?_, hl⟩
      intro y hy
      rcases List.mem_cons.1 hy with rfl | hyt
      · exact h
      · exact htrans b y (List.mem_cons_self b t) (List.mem_cons_of_mem b hyt) h (hbt y hyt)
    · simp only [insOrd, h, Bool.false_eq_true, if_false]
      refine List.pairwise_cons.2 ⟨?_, ?_⟩
      · intro y hy
        rcases (mem_insOrd le a y t).1 hy with rfl | hyt
        · rcases htot b (List.mem_cons_self b t) with hab' | hba
          · exact absurd hab' h
          · exact hba
        · exact hbt y hyt
      · exact ih ht (fun c hc => htot c (List.mem_cons_of_mem b hc))
          (fun x y hx hy => htrans x y (List.mem_cons_of_mem b hx) (List.mem_cons_of_mem b hy))

theorem isort_pairwise (le : α → α → Bool) (l : List α)
    (htot : ∀ x ∈ l, ∀ y ∈ l, le x y = true ∨ le y x = true)
    (htrans : ∀ x y z, x ∈ l → y ∈ l → z ∈ l →
        le x y = true → le y z = true → le x z = true) :
    (isort le l).Pairwise (fun x y => le x y = true) := by
  induction l with
  | nil => simp [isort]
  | cons a t ih =>
    have hmem : ∀ x, x ∈ isort le t → x ∈ a :: t := by
      intro x hx
      exact List.mem_cons_of_mem a ((mem_isort le x t).1 hx)
    refine insOrd_pairwise le a (isort le t) ?_ ?_ ?_
    · exact ih (fun x hx y hy => htot x (List.mem_cons_of_mem a hx) y (List.mem_cons_of_mem a hy))
        (fun x y z hx hy hz => htrans x y z (List.mem_cons_of_mem a hx)
          (List.mem_cons_of_mem a hy) (List.mem_cons_of_mem a hz))
    · intro b hb
      exact htot a (List.mem_cons_self a t) b (hmem b hb)
    · intro x y hx hy
      exact htrans a x y (List.mem_cons_self a t) (hmem x hx) (hmem y hy)

theorem pair_sublist_cons {x y c : α} {t : List α} (h : ([x, y]).Sublist (c :: t)) :
    ([x, y]).Sublist t ∨ (x = c ∧ ([y]).Sublist t) := by
  cases h with
  | cons _ h => exact Or.inl h
  | cons₂ _ h => exact Or.inr ⟨rfl, h⟩

theorem sub_insOrd (le : α → α → Bool) (a x y : α) (l : List α)
    (h : ([x, y]).Sublist (insOrd le a l)) :
    ([x, y]).Sublist l ∨ (x = a ∧ y ∈ l) ∨ (y = a ∧ x ∈ l ∧ le a x = false) := by
  induction l with
  | nil =>
    simp only [insOrd] at h
    have := h.length_le
    simp at this
  | cons b t ih =>
    by_cases hab : le a b
    · simp only [insOrd, hab, if_true] at h
      rcases pair_sublist_cons h with h' | ⟨rfl, h'⟩
      · exact Or.inl h'
      · exact Or.inr (Or.inl ⟨rfl, h'.subset (List.mem_singleton_self y)⟩)
    · simp only [insOrd, hab, Bool.false_eq_true, if_false] at h
      rcases pair_sublist_cons h with h' | ⟨rfl, h'⟩
      · rcases ih h' with h'' | ⟨rfl, hy⟩ | ⟨rfl, hx, hle⟩
        · exact Or.inl (h''.cons b)
        · exact Or.inr (Or.inl ⟨rfl, List.mem_cons_of_mem b hy⟩)
        · exact Or.inr (Or.inr ⟨rfl, List.mem_cons_of_mem b hx, hle⟩)
      · have hy : y ∈ insOrd le a t := h'.subset (List.mem_singleton_self y)
        rcases (mem_insOrd le a y t).1 hy with rfl | hyt
        · exact Or.inr (Or.inr ⟨rfl, List.mem_cons_self _ t,
            Bool.eq_false_iff.2 hab⟩)
        · exact Or.inl ((List.singleton_sublist.2 hyt).cons₂ _)

theorem isort_stable (le : α → α → Bool) (x y : α) (l : List α)
    (_hxy : le x y = true) (hyx : le y x = true)
    (h : ([x, y]).Sublist (isort le l)) : ([x, y]).Sublist l := by
  induction l with
  | nil => simp [isort] at h
  | cons a t ih =>
    simp only [isort] at h
    rcases sub_insOrd le a x y (isort le t) h with h' | ⟨rfl, hy⟩ | ⟨rfl, hx, hle⟩
    · exact (ih h').cons a
    · exact (List.singleton_sublist.2 ((mem_isort le y t).1 hy)).cons₂ _
    · rw [hyx] at hle
      cases hle

/-! ### First-seen order of distinct tokens -/

theorem mem_firstSeenAux (l seen : List String) (x : String)
    (hx : x ∈ firstSeenAux l seen) : x ∉ seen ∧ x ∈ l := by
  induction l generalizing seen with
  | nil => simp [firstSeenAux] at hx
  | cons t ts ih =>
    by_cases h : seen.contains t
    · simp only [firstSeenAux, h, if_true] at hx
      rcases ih seen hx with ⟨h1, h2⟩
      exact ⟨h1, List.mem_cons_of_mem t h2⟩
    · simp only [firstSeenAux, h, Bool.false_eq_true, if_false, List.mem_cons] at hx
      rcases hx with rfl | hx
      · exact ⟨fun hc => h (List.elem_eq_true_of_mem hc), List.mem_cons_self _ ts⟩
      · rcases ih (t :: seen) hx with ⟨h1, h2⟩
        exact ⟨fun hc => h1 (List.mem_cons_of_mem t hc), List.mem_cons_of_mem t h2⟩

theorem firstSeenAux_indexOf_pairwise (l seen : List String) :
    (firstSeenAux l seen).Pairwise (fun a b => l.indexOf a < l.indexOf b) := by
  induction l generalizing seen with
  | nil => simp [firstSeenAux]
  | cons t ts ih =>
    by_cases h : seen.contains t
    · simp only [firstSeenAux, h, if_true]
      refine (ih seen).imp_of_mem ?_
      intro a b ha hb hab
      have hat : a ≠ t := by
        intro hEq
        exact (mem_firstSeenAux ts seen a ha).1 (hEq ▸ List.mem_of_elem_eq_true h)
      have hbt : b ≠ t := by
        intro hEq
        exact (mem_firstSeenAux ts seen b hb).1 (hEq ▸ List.mem_of_elem_eq_true h)
      rw [List.indexOf_cons_ne ts hat.symm, List.indexOf_cons_ne ts hbt.symm]
      omega
    · simp only [firstSeenAux, h, Bool.false_eq_true, if_false]
      refine List.pairwise_cons.2 ⟨?_, ?_⟩
      · intro b hb
        have hbt : b ≠ t := fun hEq =>
          (mem_firstSeenAux ts (t :: seen) b hb).1 (hEq ▸ List.mem_cons_self t seen)
        rw [List.indexOf_cons_self, List.indexOf_cons_ne ts hbt.symm]
        omega
      · refine (ih (t :: seen)).imp_of_mem ?_
        intro a b ha hb hab
        have hat : a ≠ t := fun hEq =>
          (mem_firstSeenAux ts (t :: seen) a ha).1 (hEq ▸ List.mem_cons_self t seen)
        have hbt : b ≠ t := fun hEq =>
          (mem_firstSeenAux ts (t :: seen) b hb).1 (hEq ▸ List.mem_cons_self t seen)
        rw [List.indexOf_cons_ne ts hat.symm, List.indexOf_cons_ne ts hbt.symm]
        omega

theorem firstSeen_indexOf_pairwise (l : List String) :
    (firstSeen l).Pairwise (fun a b => l.indexOf a < l.indexOf b) :=
  firstSeenAux_indexOf_pairwise l []

theorem countGe_true_iff (x y : String × ℕ) : countGe x y = true ↔ y.2 ≤ x.2 := by
  simp [countGe]

/-- C3 core: `keyword_top_n text n` returns at most `n` pairs, each pair's
count is the exact occurrence count among `clean_tokens text`, pairs are
sorted by count descending, ties are ordered by first occurrence, and
`n = 0` yields the empty list. -/
theorem keyword_top_n_spec (text : String) (n : ℕ) :
    (keyword_top_n text n).length ≤ n
  ∧ (∀ p ∈ keyword_top_n text n, p.2 = (clean_tokens text).count p.1)
  ∧ (keyword_top_n text n).Pairwise (fun p q => q.2 ≤ p.2)
  ∧ (∀ p q, ([p, q]).Sublist (keyword_top_n text n) → p.2 = q.2 →
      (clean_tokens text).indexOf p.1 < (clean_tokens text).indexOf q.1)
  ∧ keyword_top_n text 0 = [] := by
  have hitems : keyword_top_n text n =
      (isort countGe ((firstSeen (clean_tokens text)).map
        (fun t => (t, (clean_tokens text).count t)))).take n := rfl
  refine ⟨?_, ?_, ?_, ?_, rfl⟩
  · rw [hitems]; exact List.length_take_le n _
  · intro p hp
    rw [hitems] at hp
    have hp' := (List.take_sublist n _).subset hp
    rw [mem_isort] at hp'
    rcases List.mem_map.1 hp' with ⟨t, _, rfl⟩
    rfl
  · have hsorted := isort_pairwise countGe
      ((firstSeen (clean_tokens text)).map (fun t => (t, (clean_tokens text).count t)))
      (fun x _ y _ => by
        rcases Nat.le_total y.2 x.2 with h | h
        · exact Or.inl ((countGe_true_iff x y).2 h)
        · exact Or.inr ((countGe_true_iff y x).2 h))
      (fun x y z _ _ _ hxy hyz => (countGe_true_iff x z).2
        (Nat.le_trans ((countGe_true_iff y z).1 hyz) ((countGe_true_iff x y).1 hxy)))
    rw [hitems]
    exact ((hsorted.sublist (List.take_sublist n _)).imp
      (fun h => (countGe_true_iff _ _).1 h))
  · intro p q hsub htie
    rw [hitems] at hsub
    have hsub' := hsub.trans (List.take_sublist n _)
    have hstable := isort_stable countGe p q _
      ((countGe_true_iff p q).2 (le_of_eq htie.symm))
      ((countGe_true_iff q p).2 (le_of_eq htie)) hsub'
    rcases List.sublist_map_iff.1 hstable with ⟨l', hl', heq⟩
    match l', heq with
    | [a, b], heq =>
      have hpa : p = (a, (clean_tokens text).count a) := by
        have := congrArg (fun l => l.get? 0) heq
        simpa using this
      have hqb : q = (b, (clean_tokens text).count b) := by
        have := congrArg (fun l => l.get? 1) heq
        simpa using this
      have hpair : (fun x y => (clean_tokens text).indexOf x <
          (clean_tokens text).indexOf y) a b := by
        have hp2 := (firstSeen_indexOf_pairwise (clean_tokens text)).sublist hl'
        exact (List.pairwise_cons.1 hp2).1 b (List.mem_cons_self b [])
      rw [hpa, hqb]
      exact hpair

/-- Witness for `keyword_top_n_spec` at a concrete input with a count tie. -/
theorem keyword_top_n_spec_witness :
    (keyword_top_n ("cat dog cat dog") 2).length ≤ 2
  ∧ ("dog", 2).2 = (clean_tokens ("cat dog cat dog")).count ("dog", 2).1
  ∧ (clean_tokens ("cat dog cat dog")).indexOf ("cat") <
      (clean_tokens ("cat dog cat dog")).indexOf ("dog") := by
  have hres : keyword_top_n ("cat dog cat dog") 2 = [("cat", 2), ("dog", 2)] := by decide
  refine ⟨(keyword_top_n_spec ("cat dog cat dog") 2).1, ?_, ?_⟩
  · exact (keyword_top_n_spec ("cat dog cat dog") 2).2.1 ("dog", 2)
      (by rw [hres]; exact List.mem_cons_of_mem _ (List.mem_cons_self _ _))
  · exact (keyword_top_n_spec ("cat dog cat dog") 2).2.2.2.1 ("cat", 2) ("dog", 2)
      (by rw [hres]) rfl

/-! ### The tokenizer computes the spec's 4-step algorithm -/



/-- C5 core: `clean_tokens` computes exactly the spec's 4-step algorithm
(with order preserved, no deduplication), and the spec's worked example. -/
theorem clean_tokens_spec (text : String) :
    clean_tokens text = tokenizeSpec text
  ∧ clean_tokens ("Hello, World! 123 the AND") = ["hello", "world"] := by
  constructor
  · show ((splitWs (subNonKept text.data)).map
        (fun w => String.mk (normWord w))).filter _ = _
    unfold tokenizeSpec specStep4 specStep3 specStep2 specStep1
    rw [show subNonKept text.data = text.data.map
        (fun c => if keptChar c then c else ' ') from rfl]
    rw [List.map_map]
    apply List.filter_congr
    intro w _
    by_cases hw : w = ""
    · subst hw
      simp [pyIsDigit]
    · have hdata : w.data.isEmpty = false := by
        rw [Bool.eq_false_iff]
        intro hc
        exact hw (String.ext ((List.isEmpty_iff).1 hc))
      have h3 : pyIsDigit w = w.data.all Char.isDigit := by
        unfold pyIsDigit
        rw [hdata]
        simp
      rw [h3]
      simp only [hw, decide_not]
      cases hall : w.data.all Char.isDigit <;> cases hstp : STOPWORDS.contains w <;>
        simp [hall, hstp, hw]
  · decide

/-- C6 core: every token produced by `clean_tokens` is nonempty, not a
stopword, and not made of digits only. -/
theorem clean_tokens_no_stopword_no_digit (text : String) (t : String)
    (ht : t ∈ clean_tokens text) :
    t ≠ "" ∧ t ∉ STOPWORDS ∧ ¬ (t.data.all Char.isDigit = true) := by
  unfold clean_tokens at ht
  rcases List.mem_filter.1 ht with ⟨_, hpred⟩
  simp only [Bool.and_eq_true, Bool.not_eq_true', decide_eq_true_eq] at hpred
  rcases hpred with ⟨⟨hne, hstop⟩, hdig⟩
  refine ⟨hne, ?_, ?_⟩
  · intro hmem
    rw [Bool.eq_false_iff] at hstop
    exact hstop (List.elem_iff.2 hmem)
  · intro hall
    have hpd : pyIsDigit t = true := by
      unfold pyIsDigit
      have hd : t.data.isEmpty = false := by
        rw [Bool.eq_false_iff]
        intro hc
        exact hne (String.ext ((List.isEmpty_iff).1 hc))
      simp [hd, hall]
    rw [hpd] at hdig
    cases hdig

/-- Witness for `clean_tokens_no_stopword_no_digit` at a concrete token. -/
theorem clean_tokens_no_stopword_no_digit_witness :
    "hello" ≠ "" ∧ "hello" ∉ STOPWORDS ∧ ¬ ("hello".data.all Char.isDigit = true) :=
  clean_tokens_no_stopword_no_digit ("hello world") "hello" (by decide)

/-! ### Sentence segmentation: reconstruction and trimming -/



theorem nonWs_append (x y : List Char) : nonWs (x ++ y) = nonWs x ++ nonWs y :=
  List.filter_append x y

theorem nonWs_dropWhile_space (l : List Char) :
    nonWs (l.dropWhile isSpaceChar) = nonWs l := by
  induction l with
  | nil => rfl
  | cons c t ih =>
    by_cases h : isSpaceChar c
    · rw [List.dropWhile_cons, if_pos h, ih]
      simp [nonWs, h]
    · rw [List.dropWhile_cons, if_neg h]

theorem nonWs_reverse (l : List Char) : nonWs l.reverse = (nonWs l).reverse :=
  List.filter_reverse _ l

theorem nonWs_stripChars (l : List Char) : nonWs (stripChars l) = nonWs l := by
  unfold stripChars
  rw [nonWs_reverse, nonWs_dropWhile_space, nonWs_reverse, List.reverse_reverse,
    nonWs_dropWhile_space]



theorem splitPunctAux_nonWs (cs : List Char) : ∀ mode : Option (List Char),
    nonWs (splitPunctAux cs mode).flatten = nonWs (modeList mode ++ cs) := by
  induction cs with
  | nil =>
    intro mode
    cases mode with
    | none => simp [splitPunctAux, modeList, nonWs]
    | some acc => simp [splitPunctAux, modeList]
  | cons c t ih =>
    intro mode
    cases mode with
    | none =>
      by_cases h : isSpaceChar c
      · rw [show splitPunctAux (c :: t) none = splitPunctAux t none from by
          simp [splitPunctAux, h]]
        rw [ih none]
        simp [modeList, nonWs, h]
      · rw [show splitPunctAux (c :: t) none = splitPunctAux t (some [c]) from by
          simp [splitPunctAux, h]]
        rw [ih (some [c])]
        simp [modeList]
    | some acc =>
      by_cases h : isSpaceChar c && headPunct acc
      · rw [show splitPunctAux (c :: t) (some acc) =
            acc.reverse :: splitPunctAux t none from by simp [splitPunctAux, h]]
        have hc : isSpaceChar c = true := by
          rw [Bool.and_eq_true] at h
          exact h.1
        rw [List.flatten_cons, nonWs_append, ih none]
        simp [modeList, nonWs, hc, nonWs_append]
      · rw [show splitPunctAux (c :: t) (some acc) =
            splitPunctAux t (some (c :: acc)) from by simp [splitPunctAux, h]]
        rw [ih (some (c :: acc))]
        simp [modeList, nonWs_append]

theorem dropWhile_dropWhile (p : α → Bool) (l : List α) :
    (l.dropWhile p).dropWhile p = l.dropWhile p := by
  induction l with
  | nil => rfl
  | cons c t ih =>
    by_cases h : p c
    · rw [List.dropWhile_cons, if_pos h, ih]
    · rw [List.dropWhile_cons, if_neg h, List.dropWhile_cons, if_neg h]

theorem dropWhile_append_singleton_not (p : α → Bool) (c : α) (hc : p c = false)
    (xs : List α) : ∃ zs, List.dropWhile p (xs ++ [c]) = zs ++ [c] := by
  rw [List.dropWhile_append]
  by_cases h : (List.dropWhile p xs).isEmpty
  · rw [if_pos h, List.dropWhile_cons, hc]
    exact ⟨[], by simp⟩
  · rw [if_neg h]
    exact ⟨List.dropWhile p xs, rfl⟩

theorem dropWhile_of_head_not (p : α → Bool) (c : α) (hc : p c = false)
    (t : List α) : List.dropWhile p (c :: t) = c :: t := by
  rw [List.dropWhile_cons, hc]
  simp

theorem dropWhile_head_not (p : α → Bool) (l : List α) (c : α) (t : List α)
    (h : l.dropWhile p = c :: t) : p c = false := by
  induction l with
  | nil => simp at h
  | cons a l' ih =>
    by_cases ha : p a
    · rw [List.dropWhile_cons, if_pos ha] at h
      exact ih h
    · rw [List.dropWhile_cons, if_neg ha] at h
      cases h
      exact Bool.eq_false_iff.2 ha

/-- Trimming is idempotent. -/
theorem stripChars_idem (l : List Char) : stripChars (stripChars l) = stripChars l := by
  have hleft : (stripChars l).dropWhile isSpaceChar = stripChars l := by
    unfold stripChars
    rcases hd : l.dropWhile isSpaceChar with _ | ⟨c, t⟩
    · simp
    · have hc : isSpaceChar c = false := dropWhile_head_not isSpaceChar l c t hd
      rcases dropWhile_append_singleton_not isSpaceChar c hc t.reverse with ⟨zs, hzs⟩
      rw [List.reverse_cons, hzs, List.reverse_append]
      exact dropWhile_of_head_not isSpaceChar c hc _
  show ((((stripChars l).dropWhile isSpaceChar).reverse).dropWhile isSpaceChar).reverse =
    stripChars l
  rw [hleft]
  show ((((l.dropWhile isSpaceChar).reverse.dropWhile
      isSpaceChar).reverse).reverse.dropWhile isSpaceChar).reverse = stripChars l
  rw [List.reverse_reverse, dropWhile_dropWhile]
  rfl

/-- Dropping the empty pieces does not change the flattened content. -/
theorem flatten_filter_ne_empty (L : List String) :
    ((L.filter (· ≠ "")).map String.data).flatten = (L.map String.data).flatten := by
  induction L with
  | nil => rfl
  | cons s t ih =>
    by_cases h : s = ""
    · subst h
      simp only [List.filter_cons]
      rw [if_neg (by simp)]
      simpa using ih
    · simp only [List.filter_cons]
      rw [if_pos (by simp [h])]
      simp only [List.map_cons, List.flatten_cons, ih]

/-- C7 core: concatenating the sentences of `split_sentences text`
reconstructs the non-whitespace content of `text` in order, and every
returned sentence is nonempty and already trimmed (so none is empty after
trimming). -/
theorem split_sentences_reconstruct (text : String) :
    nonWs (((split_sentences text).map String.data).flatten) = nonWs text.data
  ∧ ∀ s ∈ split_sentences text, s ≠ "" ∧ stripChars s.data = s.data := by
  constructor
  · unfold split_sentences
    rw [flatten_filter_ne_empty]
    have hmap : ∀ parts : List (List Char),
        ((parts.map (fun p => String.mk (stripChars p))).map String.data).flatten =
          (parts.map stripChars).flatten := by
      intro parts
      rw [List.map_map]
      rfl
    rw [hmap]
    have hjoin : ∀ parts : List (List Char),
        nonWs (parts.map stripChars).flatten = nonWs parts.flatten := by
      intro parts
      induction parts with
      | nil => rfl
      | cons p t ih =>
        simp only [List.map_cons, List.flatten_cons, nonWs_append, ih, nonWs_stripChars]
    rw [hjoin]
    have := splitPunctAux_nonWs text.data (some [])
    simpa [modeList] using this
  · intro s hs
    unfold split_sentences at hs
    rcases List.mem_filter.1 hs with ⟨hmem, hne⟩
    rcases List.mem_map.1 hmem with ⟨p, _, rfl⟩
    refine ⟨by simpa using hne, ?_⟩
    show stripChars (stripChars p) = stripChars p
    exact stripChars_idem p

/-- Witness for `split_sentences_reconstruct` at a concrete text. -/
theorem split_sentences_reconstruct_witness :
    nonWs (((split_sentences ("Hi there. Bye.")).map String.data).flatten) =
      nonWs ("Hi there. Bye." : String).data
  ∧ ("Hi there." ≠ "" ∧ stripChars ("Hi there." : String).data =
      ("Hi there." : String).data) :=
  ⟨(split_sentences_reconstruct ("Hi there. Bye.")).1,
   (split_sentences_reconstruct ("Hi there. Bye.")).2 ("Hi there.") (by decide)⟩

/-! ### Sentence segmentation: no-terminator and whitespace-only inputs -/



theorem noPunctWsB_tail (c : Char) (rest : List Char)
    (h : noPunctWsB (c :: rest) = true) : noPunctWsB rest = true := by
  cases rest with
  | nil => rfl
  | cons d t =>
    rw [show noPunctWsB (c :: d :: t) =
      (!(punctChar c && isSpaceChar d) && noPunctWsB (d :: t)) from rfl,
      Bool.and_eq_true] at h
    exact h.2

theorem noPunctWsB_pair (xs : List Char) (a b : Char) (ys : List Char)
    (h : noPunctWsB (xs ++ a :: b :: ys) = true) :
    (punctChar a && isSpaceChar b) = false := by
  induction xs with
  | nil =>
    rw [List.nil_append, show noPunctWsB (a :: b :: ys) =
      (!(punctChar a && isSpaceChar b) && noPunctWsB (b :: ys)) from rfl,
      Bool.and_eq_true] at h
    have h1 := h.1
    cases hx : (punctChar a && isSpaceChar b)
    · rfl
    · rw [hx] at h1
      exact absurd h1 (by decide)
  | cons x xs' ih =>
    rw [List.cons_append] at h
    exact ih (noPunctWsB_tail x _ h)

theorem splitPunctAux_no_split (cs : List Char) : ∀ acc : List Char,
    noPunctWsB (acc.reverse ++ cs) = true →
    splitPunctAux cs (some acc) = [acc.reverse ++ cs] := by
  induction cs with
  | nil =>
    intro acc _
    simp [splitPunctAux]
  | cons c t ih =>
    intro acc h
    by_cases hcond : isSpaceChar c && headPunct acc
    · rcases acc with _ | ⟨p, acc'⟩
      · simp [headPunct] at hcond
      · have hp : punctChar p = true := by
          rw [Bool.and_eq_true] at hcond
          simpa [headPunct] using hcond.2
        have hc : isSpaceChar c = true := by
          rw [Bool.and_eq_true] at hcond
          exact hcond.1
        have hlist : (p :: acc').reverse ++ c :: t = acc'.reverse ++ p :: c :: t := by
          rw [List.reverse_cons, List.append_assoc]
          rfl
        rw [hlist] at h
        have := noPunctWsB_pair acc'.reverse p c t h
        rw [hp, hc] at this
        cases this
    · rw [show splitPunctAux (c :: t) (some acc) = splitPunctAux t (some (c :: acc)) from by
        simp [splitPunctAux, hcond]]
      have hlist : (c :: acc).reverse ++ t = acc.reverse ++ c :: t := by
        rw [List.reverse_cons, List.append_assoc]
        rfl
      rw [ih (c :: acc) (by rw [hlist]; exact h), hlist]

theorem stripChars_eq_nil_iff (l : List Char) :
    stripChars l = [] ↔ l.all isSpaceChar = true := by
  unfold stripChars
  rw [List.reverse_eq_nil_iff, List.dropWhile_eq_nil_iff, List.all_eq_true]
  constructor
  · intro h x hx
    rcases (List.mem_append.1 ((List.takeWhile_append_dropWhile isSpaceChar l) ▸ hx)) with
      hx' | hx'
    · exact List.mem_takeWhile_imp hx'
    · exact h x (List.mem_reverse.2 hx')
  · intro h x hx
    exact h x ((List.dropWhile_suffix isSpaceChar).subset (List.mem_reverse.1 hx))

/-- C8 core: a text with no sentence terminator followed by whitespace is a
single trimmed sentence if it has non-whitespace content, and yields no
sentences if it is whitespace only (or empty). -/
theorem split_sentences_no_terminator (text : String)
    (hnp : noPunctWsB text.data = true) :
    (¬ text.data.all isSpaceChar = true →
      split_sentences text = [String.mk (stripChars text.data)])
  ∧ (text.data.all isSpaceChar = true → split_sentences text = []) := by
  have hparts : splitPunctAux text.data (some []) = [text.data] := by
    have := splitPunctAux_no_split text.data [] (by simpa using hnp)
    simpa using this
  unfold split_sentences
  rw [hparts]
  constructor
  · intro hns
    have hne : stripChars text.data ≠ [] := by
      rw [Ne, stripChars_eq_nil_iff]
      exact hns
    simp only [List.map_cons, List.map_nil, List.filter_cons]
    rw [if_pos (by simp [hne, String.ext_iff])]
    rfl
  · intro hsp
    have hnil : stripChars text.data = [] := (stripChars_eq_nil_iff text.data).2 hsp
    simp only [List.map_cons, List.map_nil, List.filter_cons, hnil]
    rw [if_neg (by simp)]
    rfl

/-- Witness for `split_sentences_no_terminator`: a punctuation-free text and a
whitespace-only text. -/
theorem split_sentences_no_terminator_witness :
    split_sentences ("hello world") = [String.mk (stripChars ("hello world" : String).data)]
  ∧ split_sentences ("  ") = [] :=
  ⟨(split_sentences_no_terminator ("hello world") (by decide)).1 (by decide),
   (split_sentences_no_terminator ("  ") (by decide)).2 (by decide)⟩

/-! ### Tokenization distributes over space-joined concatenation -/

theorem splitWsAux_append_single_space (z : List Char) : ∀ acc : List Char,
    splitWsAux (z ++ [' ']) acc = splitWsAux z acc := by
  induction z with
  | nil =>
    intro acc
    cases acc with
    | nil => rfl
    | cons a as => rfl
  | cons c t ih =>
    intro acc
    by_cases h : isSpaceChar c
    · cases acc with
      | nil =>
        rw [List.cons_append,
          show splitWsAux (c :: (t ++ [' '])) [] = splitWsAux (t ++ [' ']) [] from by
            simp [splitWsAux, h],
          show splitWsAux (c :: t) [] = splitWsAux t [] from by simp [splitWsAux, h]]
        exact ih []
      | cons a as =>
        rw [List.cons_append,
          show splitWsAux (c :: (t ++ [' '])) (a :: as) =
            (a :: as).reverse :: splitWsAux (t ++ [' ']) [] from by simp [splitWsAux, h],
          show splitWsAux (c :: t) (a :: as) =
            (a :: as).reverse :: splitWsAux t [] from by simp [splitWsAux, h]]
        rw [ih []]
    · rw [List.cons_append,
        show splitWsAux (c :: (t ++ [' '])) acc = splitWsAux (t ++ [' ']) (c :: acc) from by
          simp [splitWsAux, h],
        show splitWsAux (c :: t) acc = splitWsAux t (c :: acc) from by
          simp [splitWsAux, h]]
      exact ih (c :: acc)

theorem splitWsAux_append_space (z : List Char) : ∀ (acc y : List Char),
    splitWsAux (z ++ ' ' :: y) acc = splitWsAux (z ++ [' ']) acc ++ splitWsAux y [] := by
  induction z with
  | nil =>
    intro acc y
    cases acc with
    | nil => rfl
    | cons a as => rfl
  | cons c t ih =>
    intro acc y
    by_cases h : isSpaceChar c
    · cases acc with
      | nil =>
        rw [List.cons_append,
          show splitWsAux (c :: (t ++ ' ' :: y)) [] = splitWsAux (t ++ ' ' :: y) [] from by
            simp [splitWsAux, h],
          List.cons_append,
          show splitWsAux (c :: (t ++ [' '])) [] = splitWsAux (t ++ [' ']) [] from by
            simp [splitWsAux, h]]
        exact ih [] y
      | cons a as =>
        rw [List.cons_append,
          show splitWsAux (c :: (t ++ ' ' :: y)) (a :: as) =
            (a :: as).reverse :: splitWsAux (t ++ ' ' :: y) [] from by
            simp [splitWsAux, h],
          List.cons_append,
          show splitWsAux (c :: (t ++ [' '])) (a :: as) =
            (a :: as).reverse :: splitWsAux (t ++ [' ']) [] from by simp [splitWsAux, h]]
        rw [ih [] y]
        rfl
    · rw [List.cons_append,
        show splitWsAux (c :: (t ++ ' ' :: y)) acc = splitWsAux (t ++ ' ' :: y) (c :: acc) from by
          simp [splitWsAux, h],
        List.cons_append,
        show splitWsAux (c :: (t ++ [' '])) acc = splitWsAux (t ++ [' ']) (c :: acc) from by
          simp [splitWsAux, h]]
      exact ih (c :: acc) y

theorem splitWs_append_space (x y : List Char) :
    splitWs (x ++ ' ' :: y) = splitWs x ++ splitWs y := by
  unfold splitWs
  rw [splitWsAux_append_space x [] y, splitWsAux_append_single_space x []]

theorem clean_tokens_append_space (x y : String) :
    clean_tokens (x ++ " " ++ y) = clean_tokens x ++ clean_tokens y := by
  unfold clean_tokens subNonKept
  rw [String.data_append, String.data_append,
    show (" " : String).data = [' '] from rfl]
  rw [List.map_append, List.map_append,
    show List.map (fun c => if keptChar c then c else ' ') [' '] = [' '] from by
      simp [keptChar, isSpaceChar],
    List.append_assoc]
  rw [List.singleton_append, splitWs_append_space, List.map_append, List.filter_append]

/-- C10 part 1 (helper): tokenizing strings joined by single spaces equals the
concatenation of the individual tokenizations. -/
theorem clean_tokens_joinSpace (strs : List String) :
    clean_tokens (joinSpace strs) = strs.flatMap clean_tokens := by
  induction strs with
  | nil => rfl
  | cons s rest ih =>
    cases rest with
    | nil => simp [joinSpace, List.flatMap_cons]
    | cons t rest' =>
      rw [show joinSpace (s :: t :: rest') = s ++ " " ++ joinSpace (t :: rest') from rfl,
        clean_tokens_append_space, List.flatMap_cons, ih]

/-! ### The exact real score and the integer comparison -/

theorem scoreVal_pos (a b : ℕ) (ha : 1 ≤ a) (hb : 1 ≤ b) : 0 < scoreVal (a, b) := by
  unfold scoreVal
  apply div_pos
  · exact_mod_cast Nat.lt_of_lt_of_le Nat.zero_lt_one ha
  · exact Real.rpow_pos_of_pos (by exact_mod_cast hb) _

theorem rpow_eight_tenths_pow_five (m : ℕ) :
    (((m : ℝ) ^ (0.8 : ℝ)) ^ (5 : ℕ)) = ((m ^ 4 : ℕ) : ℝ) := by
  rw [← Real.rpow_natCast ((m : ℝ) ^ (0.8 : ℝ)) 5,
    ← Real.rpow_mul (by positivity)]
  have h45 : (0.8 : ℝ) * ((5 : ℕ) : ℝ) = ((4 : ℕ) : ℝ) := by norm_num
  rw [h45, Real.rpow_natCast]
  push_cast
  ring

theorem scoreVal_le_iff (a b c d : ℕ) (hb : 1 ≤ b) (hd : 1 ≤ d) :
    scoreVal (c, d) ≤ scoreVal (a, b) ↔ c ^ 5 * b ^ 4 ≤ a ^ 5 * d ^ 4 := by
  unfold scoreVal
  have hb0 : (0 : ℝ) < (b : ℝ) ^ (0.8 : ℝ) :=
    Real.rpow_pos_of_pos (by exact_mod_cast hb) _
  have hd0 : (0 : ℝ) < (d : ℝ) ^ (0.8 : ℝ) :=
    Real.rpow_pos_of_pos (by exact_mod_cast hd) _
  rw [div_le_div_iff₀ hd0 hb0]
  have key : ∀ x y : ℝ, 0 ≤ x → 0 ≤ y → (x ≤ y ↔ x ^ (5 : ℕ) ≤ y ^ (5 : ℕ)) := by
    intro x y hx hy
    constructor
    · intro h
      exact pow_le_pow_left₀ hx h 5
    · intro h
      exact le_of_pow_le_pow_left₀ (by norm_num) hy h
  rw [key _ _ (by positivity) (by positivity), mul_pow, mul_pow,
    rpow_eight_tenths_pow_five b, rpow_eight_tenths_pow_five d]
  rw [show ((c : ℝ) ^ (5 : ℕ)) = ((c ^ 5 : ℕ) : ℝ) from by push_cast; ring,
    show ((a : ℝ) ^ (5 : ℕ)) = ((a ^ 5 : ℕ) : ℝ) from by push_cast; ring,
    ← Nat.cast_mul, ← Nat.cast_mul, Nat.cast_le]

theorem scoreGe_true_iff (x y : String × ℕ × ℕ)
    (hx : 1 ≤ x.2.2) (hy : 1 ≤ y.2.2) :
    scoreGe x y = true ↔ scoreVal y.2 ≤ scoreVal x.2 := by
  unfold scoreGe
  rw [decide_eq_true_eq]
  exact (scoreVal_le_iff x.2.1 x.2.2 y.2.1 y.2.2 hx hy).symm

theorem scoreGe_total (x y : String × ℕ × ℕ) :
    scoreGe x y = true ∨ scoreGe y x = true := by
  unfold scoreGe
  rcases Nat.le_total (y.2.1 ^ 5 * x.2.2 ^ 4) (x.2.1 ^ 5 * y.2.2 ^ 4) with h | h
  · exact Or.inl (decide_eq_true h)
  · exact Or.inr (decide_eq_true h)

theorem scoreGe_trans (x y z : String × ℕ × ℕ) (hy : 1 ≤ y.2.2)
    (h1 : scoreGe x y = true) (h2 : scoreGe y z = true) : scoreGe x z = true := by
  unfold scoreGe at h1 h2 ⊢
  rw [decide_eq_true_eq] at h1 h2 ⊢
  rcases Nat.eq_zero_or_pos y.2.1 with hc | hc
  · rw [hc] at h2
    have h2' : z.2.1 ^ 5 * y.2.2 ^ 4 = 0 := by
      have h00 : (0 : ℕ) ^ 5 * z.2.2 ^ 4 = 0 := by norm_num
      omega
    rcases Nat.mul_eq_zero.1 h2' with h5 | h4
    · rw [(Nat.pow_eq_zero.1 h5).1]
      simp
    · have h40 : y.2.2 = 0 := (Nat.pow_eq_zero.1 h4).1
      omega
  · have hd : 0 < y.2.2 := hy
    have hpos : 0 < y.2.1 ^ 5 * y.2.2 ^ 4 :=
      Nat.mul_pos (Nat.pos_pow_of_pos 5 hc) (Nat.pos_pow_of_pos 4 hd)
    have hmul : (y.2.1 ^ 5 * y.2.2 ^ 4) * (z.2.1 ^ 5 * x.2.2 ^ 4) ≤
        (y.2.1 ^ 5 * y.2.2 ^ 4) * (x.2.1 ^ 5 * z.2.2 ^ 4) := by
      calc (y.2.1 ^ 5 * y.2.2 ^ 4) * (z.2.1 ^ 5 * x.2.2 ^ 4)
          = (y.2.1 ^ 5 * x.2.2 ^ 4) * (z.2.1 ^ 5 * y.2.2 ^ 4) := by ring
        _ ≤ (x.2.1 ^ 5 * y.2.2 ^ 4) * (y.2.1 ^ 5 * z.2.2 ^ 4) := Nat.mul_le_mul h1 h2
        _ = (y.2.1 ^ 5 * y.2.2 ^ 4) * (x.2.1 ^ 5 * z.2.2 ^ 4) := by ring
    exact Nat.le_of_mul_le_mul_left hmul hpos

/-- Membership characterization of the pre-sort scored list. -/
theorem mem_scoredPre (sentences : List String) (e : String × ℕ × ℕ)
    (he : e ∈ scoredPre sentences) :
    e.1 ∈ sentences ∧ clean_tokens e.1 ≠ [] ∧
    e.2.1 = ((clean_tokens e.1).map
      (fun t => (clean_tokens (joinSpace sentences)).count t)).sum ∧
    e.2.2 = (clean_tokens e.1).length := by
  unfold scoredPre at he
  rcases List.mem_filterMap.1 he with ⟨s, hs, hfs⟩
  by_cases h : clean_tokens s = []
  · rw [if_pos h] at hfs
    cases hfs
  · rw [if_neg h] at hfs
    cases hfs
    exact ⟨hs, h, rfl, rfl⟩

/-- Every entry of the pre-sort scored list has a positive token count and,
via part 1, a positive frequency sum. -/
theorem scoredPre_entry_pos (sentences : List String) (e : String × ℕ × ℕ)
    (he : e ∈ scoredPre sentences) : 1 ≤ e.2.1 ∧ 1 ≤ e.2.2 := by
  rcases mem_scoredPre sentences e he with ⟨hs, hne, hsum, hlen⟩
  constructor
  · rcases ht : clean_tokens e.1 with _ | ⟨t0, rest⟩
    · exact absurd ht hne
    · have ht0 : t0 ∈ clean_tokens (joinSpace sentences) := by
        rw [clean_tokens_joinSpace]
        exact List.mem_flatMap.2 ⟨e.1, hs, by rw [ht]; exact List.mem_cons_self t0 rest⟩
      have hcount : 1 ≤ (clean_tokens (joinSpace sentences)).count t0 :=
        List.count_pos_iff.2 ht0
      rw [hsum, ht, List.map_cons, List.sum_cons]
      omega
  · rw [hlen]
    rcases ht : clean_tokens e.1 with _ | ⟨t0, rest⟩
    · exact absurd ht hne
    · simp

/-- C10 core: tokenization distributes over the single-space join, and in
`score_sentences` every token of a scored sentence has global frequency at
least 1 and every returned score is strictly positive. -/
theorem clean_tokens_join_and_scores_pos :
    (∀ strs : List String, clean_tokens (joinSpace strs) = strs.flatMap clean_tokens)
  ∧ (∀ (sents : List String) (s : String) (p : ℕ × ℕ),
      (s, p) ∈ score_sentences sents →
      (∀ t ∈ clean_tokens s, 1 ≤ (clean_tokens (joinSpace sents)).count t)
      ∧ 0 < scoreVal p) := by
  refine ⟨clean_tokens_joinSpace, ?_⟩
  intro sents s p hmem
  unfold score_sentences at hmem
  by_cases hall : clean_tokens (joinSpace sents) = []
  · rw [if_pos hall] at hmem
    cases hmem
  · rw [if_neg hall] at hmem
    have hpre : (s, p) ∈ scoredPre sents := (mem_isort scoreGe _ _).1 hmem
    rcases mem_scoredPre sents (s, p) hpre with ⟨hs, hne, hsum, hlen⟩
    have hpos := scoredPre_entry_pos sents (s, p) hpre
    constructor
    · intro t ht
      apply List.count_pos_iff.2
      rw [clean_tokens_joinSpace]
      exact List.mem_flatMap.2 ⟨s, hs, ht⟩
    · exact scoreVal_pos p.1 p.2 hpos.1 hpos.2

/-- Witness for `clean_tokens_join_and_scores_pos` at concrete inputs. -/
theorem clean_tokens_join_and_scores_pos_witness :
    clean_tokens (joinSpace ["ab cd", "ef"]) =
      (["ab cd", "ef"] : List String).flatMap clean_tokens
  ∧ 1 ≤ (clean_tokens (joinSpace ["cat cat"])).count ("cat")
  ∧ 0 < scoreVal (4, 2) :=
  ⟨clean_tokens_join_and_scores_pos.1 ["ab cd", "ef"],
   (clean_tokens_join_and_scores_pos.2 ["cat cat"] ("cat cat") (4, 2)
      (by decide)).1 ("cat") (by decide),
   (clean_tokens_join_and_scores_pos.2 ["cat cat"] ("cat cat") (4, 2)
      (by decide)).2⟩

/-! ### Full specification of the sentence scorer -/

/-- If the global frequency table is empty, so is the pre-sort scored list. -/
theorem scoredPre_eq_nil_of_all_empty (sents : List String)
    (h : clean_tokens (joinSpace sents) = []) : scoredPre sents = [] := by
  rw [clean_tokens_joinSpace] at h
  have hall := List.flatMap_eq_nil_iff.1 h
  unfold scoredPre
  apply List.filterMap_eq_nil_iff.2
  intro s hs
  rw [if_pos (hall s hs)]

theorem score_sentences_mem_pre (sents : List String) (e : String × ℕ × ℕ)
    (he : e ∈ score_sentences sents) : e ∈ scoredPre sents := by
  unfold score_sentences at he
  by_cases hall : clean_tokens (joinSpace sents) = []
  · rw [if_pos hall] at he
    cases he
  · rw [if_neg hall] at he
    exact (mem_isort scoreGe e _).1 he

/-- C4 core: `score_sentences` returns the empty list when the global
frequency table is empty; is a permutation of the original-order scored list
(which excludes exactly the token-free sentences); assigns each entry the
exact score `sum / count ** 0.8`; is sorted by score descending; and the sort
is stable (score ties keep the original sentence order). -/
theorem score_sentences_spec (sents : List String) :
    (clean_tokens (joinSpace sents) = [] → score_sentences sents = [])
  ∧ (score_sentences sents).Perm (scoredPre sents)
  ∧ (∀ e ∈ score_sentences sents, clean_tokens e.1 ≠ [] ∧
      scoreVal e.2 = ((((clean_tokens e.1).map
        (fun t => (clean_tokens (joinSpace sents)).count t)).sum : ℕ) : ℝ) /
        ((clean_tokens e.1).length : ℝ) ^ (0.8 : ℝ))
  ∧ (∀ s ∈ sents, clean_tokens s = [] → s ∉ (score_sentences sents).map Prod.fst)
  ∧ (score_sentences sents).Pairwise (fun x y => scoreVal y.2 ≤ scoreVal x.2)
  ∧ (∀ x y, ([x, y]).Sublist (score_sentences sents) →
      scoreVal x.2 = scoreVal y.2 → ([x, y]).Sublist (scoredPre sents)) := by
  have hcnt : ∀ e ∈ scoredPre sents, 1 ≤ e.2.1 ∧ 1 ≤ e.2.2 :=
    fun e he => scoredPre_entry_pos sents e he
  refine ⟨?_, ?_, ?_, ?_, ?_, ?_⟩
  · intro h
    unfold score_sentences
    rw [if_pos h]
  · unfold score_sentences
    by_cases hall : clean_tokens (joinSpace sents) = []
    · rw [if_pos hall, scoredPre_eq_nil_of_all_empty sents hall]
    · rw [if_neg hall]
      exact isort_perm scoreGe (scoredPre sents)
  · intro e he
    have hpre := score_sentences_mem_pre sents e he
    rcases mem_scoredPre sents e hpre with ⟨_, hne, hsum, hlen⟩
    refine ⟨hne, ?_⟩
    show ((e.2.1 : ℕ) : ℝ) / ((e.2.2 : ℕ) : ℝ) ^ (0.8 : ℝ) = _
    rw [hsum, hlen]
  · intro s hs hnil hmem
    rcases List.mem_map.1 hmem with ⟨e, he, rfl⟩
    have hpre := score_sentences_mem_pre sents e he
    exact (mem_scoredPre sents e hpre).2.1 hnil
  · unfold score_sentences
    by_cases hall : clean_tokens (joinSpace sents) = []
    · rw [if_pos hall]
      exact List.Pairwise.nil
    · rw [if_neg hall]
      have hsorted := isort_pairwise scoreGe (scoredPre sents)
        (fun x _ y _ => scoreGe_total x y)
        (fun x y z _ hy _ hxy hyz => scoreGe_trans x y z (hcnt y hy).2 hxy hyz)
      refine hsorted.imp_of_mem ?_
      intro x y hx hy hxy
      have hx' := (mem_isort scoreGe x _).1 hx
      have hy' := (mem_isort scoreGe y _).1 hy
      exact (scoreGe_true_iff x y (hcnt x hx').2 (hcnt y hy').2).1 hxy
  · intro x y hsub htie
    have hx : x ∈ score_sentences sents :=
      hsub.subset (List.mem_cons_self x [y])
    have hy : y ∈ score_sentences sents :=
      hsub.subset (List.mem_cons_of_mem x (List.mem_singleton_self y))
    have hx' := score_sentences_mem_pre sents x hx
    have hy' := score_sentences_mem_pre sents y hy
    have hxy : scoreGe x y = true :=
      (scoreGe_true_iff x y (hcnt x hx').2 (hcnt y hy').2).2 (le_of_eq htie.symm)
    have hyx : scoreGe y x = true :=
      (scoreGe_true_iff y x (hcnt y hy').2 (hcnt x hx').2).2 (le_of_eq htie)
    unfold score_sentences at hsub
    by_cases hall : clean_tokens (joinSpace sents) = []
    · rw [if_pos hall] at hsub
      have := hsub.length_le
      simp at this
    · rw [if_neg hall] at hsub
      exact isort_stable scoreGe x y (scoredPre sents) hxy hyx hsub

/-- Witness for `score_sentences_spec`: an all-stopword input hits the empty
table branch; a scored entry realizes the exact score formula; a tie keeps the
original sentence order. -/
theorem score_sentences_spec_witness :
    score_sentences ["the", "and"] = []
  ∧ (clean_tokens ("cat cat" : String) ≠ [] ∧
      scoreVal ((4 : ℕ), (2 : ℕ)) = ((((clean_tokens ("cat cat" : String)).map
        (fun t => (clean_tokens (joinSpace ["cat cat"])).count t)).sum : ℕ) : ℝ) /
        ((clean_tokens ("cat cat" : String)).length : ℝ) ^ (0.8 : ℝ))
  ∧ ([("aa bb", ((2 : ℕ), (2 : ℕ))), ("cc dd", ((2 : ℕ), (2 : ℕ)))]).Sublist
      (scoredPre ["aa bb", "cc dd"]) := by
  refine ⟨(score_sentences_spec ["the", "and"]).1 (by decide), ?_, ?_⟩
  · exact (score_sentences_spec ["cat cat"]).2.2.1 ("cat cat", (4, 2)) (by decide)
  · apply (score_sentences_spec ["aa bb", "cc dd"]).2.2.2.2.2
      ("aa bb", (2, 2)) ("cc dd", (2, 2))
    · have hres : score_sentences ["aa bb", "cc dd"] =
          [("aa bb", (2, 2)), ("cc dd", (2, 2))] := by decide
      rw [hres]
    · rfl

/-! ### The summary selector -/

/-- Unfolding of `extract_summary_bullets`: filtered walk, then the fallback on an
empty selection with a nonempty sentence list. -/
theorem extract_summary_bullets_eq (text : String) (k m M : ℕ) :
    extract_summary_bullets text k m M =
      if selectLoop k m M (score_sentences (split_sentences text)) [] [] = []
          ∧ split_sentences text ≠ []
      then ((split_sentences text).take k).map (fun s => "• " ++ s)
      else selectLoop k m M (score_sentences (split_sentences text)) [] [] := rfl

theorem selectLoop_length_le (k m M : ℕ) (ranked : List (String × ℕ × ℕ)) :
    ∀ (bullets : List String) (used : List (List Char)), bullets.length < k →
    (selectLoop k m M ranked bullets used).length ≤ k := by
  induction ranked with
  | nil =>
    intro bullets used h
    exact Nat.le_of_lt h
  | cons e rest ih =>
    intro bullets used h
    rcases e with ⟨s, p⟩
    by_cases h1 : s.length < m || M < s.length
    · rw [show selectLoop k m M ((s, p) :: rest) bullets used =
        selectLoop k m M rest bullets used from by simp [selectLoop, h1]]
      exact ih bullets used h
    · by_cases h2 : sigOfL s.data ∈ used
      · rw [show selectLoop k m M ((s, p) :: rest) bullets used =
          selectLoop k m M rest bullets used from by simp [selectLoop, h1, h2]]
        exact ih bullets used h
      · by_cases h3 : k ≤ bullets.length + 1
        · rw [show selectLoop k m M ((s, p) :: rest) bullets used =
            bullets ++ ["• " ++ s] from by simp [selectLoop, h1, h2, h3]]
          rw [List.length_append]
          simp only [List.length_cons, List.length_nil]
          omega
        · rw [show selectLoop k m M ((s, p) :: rest) bullets used =
            selectLoop k m M rest (bullets ++ ["• " ++ s]) (sigOfL s.data :: used) from by
              simp [selectLoop, h1, h2, h3]]
          apply ih
          rw [List.length_append]
          simp only [List.length_cons, List.length_nil]
          omega

theorem selectLoop_zero_length (m M : ℕ) (ranked : List (String × ℕ × ℕ)) :
    ∀ (bullets : List String) (used : List (List Char)),
    (selectLoop 0 m M ranked bullets used).length ≤ bullets.length + 1 := by
  induction ranked with
  | nil =>
    intro bullets used
    exact Nat.le_succ _
  | cons e rest ih =>
    intro bullets used
    rcases e with ⟨s, p⟩
    by_cases h1 : s.length < m || M < s.length
    · rw [show selectLoop 0 m M ((s, p) :: rest) bullets used =
        selectLoop 0 m M rest bullets used from by simp [selectLoop, h1]]
      exact ih bullets used
    · by_cases h2 : sigOfL s.data ∈ used
      · rw [show selectLoop 0 m M ((s, p) :: rest) bullets used =
          selectLoop 0 m M rest bullets used from by simp [selectLoop, h1, h2]]
        exact ih bullets used
      · rw [show selectLoop 0 m M ((s, p) :: rest) bullets used =
          bullets ++ ["• " ++ s] from by simp [selectLoop, h1, h2]]
        rw [List.length_append]
        simp



theorem bulletSig_bullet (s : String) : bulletSig ("• " ++ s) = sigOfL s.data := by
  unfold bulletSig
  rw [String.data_append]
  rfl

theorem selectLoop_sig_nodup (k m M : ℕ) (ranked : List (String × ℕ × ℕ)) :
    ∀ (bullets : List String) (used : List (List Char)),
    (∀ b ∈ bullets, bulletSig b ∈ used) →
    bullets.Pairwise (fun b1 b2 => bulletSig b1 ≠ bulletSig b2) →
    (selectLoop k m M ranked bullets used).Pairwise
      (fun b1 b2 => bulletSig b1 ≠ bulletSig b2) := by
  induction ranked with
  | nil =>
    intro bullets used _ hpw
    exact hpw
  | cons e rest ih =>
    intro bullets used hused hpw
    rcases e with ⟨s, p⟩
    by_cases h1 : s.length < m || M < s.length
    · rw [show selectLoop k m M ((s, p) :: rest) bullets used =
        selectLoop k m M rest bullets used from by simp [selectLoop, h1]]
      exact ih bullets used hused hpw
    · by_cases h2 : sigOfL s.data ∈ used
      · rw [show selectLoop k m M ((s, p) :: rest) bullets used =
          selectLoop k m M rest bullets used from by simp [selectLoop, h1, h2]]
        exact ih bullets used hused hpw
      · have hnew : ∀ b ∈ bullets, bulletSig b ≠ bulletSig ("• " ++ s) := by
          intro b hb hEq
          rw [bulletSig_bullet] at hEq
          exact h2 (hEq ▸ hused b hb)
        have hpw' : (bullets ++ ["• " ++ s]).Pairwise
            (fun b1 b2 => bulletSig b1 ≠ bulletSig b2) := by
          rw [List.pairwise_append]
          refine ⟨hpw, List.pairwise_singleton _ _, ?_⟩
          intro b hb b' hb'
          rw [List.mem_singleton.1 hb']
          exact hnew b hb
        have hused' : ∀ b ∈ bullets ++ ["• " ++ s],
            bulletSig b ∈ sigOfL s.data :: used := by
          intro b hb
          rcases List.mem_append.1 hb with hb | hb
          · exact List.mem_cons_of_mem _ (hused b hb)
          · rw [List.mem_singleton.1 hb, bulletSig_bullet]
            exact List.mem_cons_self _ _
        by_cases h3 : k ≤ bullets.length + 1
        · rw [show selectLoop k m M ((s, p) :: rest) bullets used =
            bullets ++ ["• " ++ s] from by simp [selectLoop, h1, h2, h3]]
          exact hpw'
        · rw [show selectLoop k m M ((s, p) :: rest) bullets used =
            selectLoop k m M rest (bullets ++ ["• " ++ s])
              (sigOfL s.data :: used) from by simp [selectLoop, h1, h2, h3]]
          exact ih _ _ hused' hpw'

/-- C1 counterexample: with `k = 0` the selector still returns one bullet (the
loop appends before testing `len(bullets) >= k`), and on the fallback path two
returned bullets can share the same first-40-lowercased signature. -/
theorem extract_summary_bullets_C1_counterexample :
    ¬ ((extract_summary_bullets
        "aaaaaaaaaaaaaaaaaaaaaaaaaaaaaaaaaaaaaaaaaaaaa" 0 40 220).length ≤ 0)
  ∧ extract_summary_bullets ("Hi. Hi.") 3 40 220 = ["• Hi.", "• Hi."]
  ∧ ¬ ((extract_summary_bullets ("Hi. Hi.") 3 40 220).Pairwise
        (fun b1 b2 => bulletSig b1 ≠ bulletSig b2)) := by
  refine ⟨by decide, by decide, ?_⟩
  intro h
  have hres : extract_summary_bullets ("Hi. Hi.") 3 40 220 = ["• Hi.", "• Hi."] := by
    decide
  rw [hres] at h
  exact (List.pairwise_cons.1 h).1 "• Hi." (List.mem_cons_self _ _) rfl

/-- C1 amended: the selector returns at most `max 1 k` bullets (at most `k`
whenever `k ≥ 1`; with `k = 0` it can return one), and whenever the result
comes from the filtered walk (the walk accepted at least one sentence, so the
fallback is not taken) no two returned bullets share the same
first-40-lowercased signature of their underlying sentences. -/
theorem extract_summary_bullets_len_sig (text : String) (k m M : ℕ) :
    (extract_summary_bullets text k m M).length ≤ max 1 k
  ∧ (1 ≤ k → (extract_summary_bullets text k m M).length ≤ k)
  ∧ (selectLoop k m M (score_sentences (split_sentences text)) [] [] ≠ [] →
      (extract_summary_bullets text k m M).Pairwise
        (fun b1 b2 => bulletSig b1 ≠ bulletSig b2)) := by
  rw [extract_summary_bullets_eq]
  by_cases hcond : selectLoop k m M (score_sentences (split_sentences text)) [] [] = []
      ∧ split_sentences text ≠ []
  · rw [if_pos hcond]
    refine ⟨?_, ?_, ?_⟩
    · rw [List.length_map]
      calc ((split_sentences text).take k).length ≤ k := List.length_take_le k _
        _ ≤ max 1 k := Nat.le_max_right 1 k
    · intro _
      rw [List.length_map]
      exact List.length_take_le k _
    · intro hne
      exact absurd hcond.1 hne
  · rw [if_neg hcond]
    refine ⟨?_, ?_, ?_⟩
    · rcases Nat.eq_zero_or_pos k with rfl | hk
      · have := selectLoop_zero_length m M
          (score_sentences (split_sentences text)) [] []
        simpa using this
      · have := selectLoop_length_le k m M
          (score_sentences (split_sentences text)) [] [] (by simpa using hk)
        omega
    · intro hk
      exact selectLoop_length_le k m M
        (score_sentences (split_sentences text)) [] [] (by simpa using hk)
    · intro _
      exact selectLoop_sig_nodup k m M (score_sentences (split_sentences text)) [] []
        (by intro b hb; cases hb) List.Pairwise.nil

/-- Witness for `extract_summary_bullets_len_sig` at a concrete input whose
result comes from the filtered walk. -/
theorem extract_summary_bullets_len_sig_witness :
    (extract_summary_bullets
      "aaaaaaaaaaaaaaaaaaaaaaaaaaaaaaaaaaaaaaaaaaaaa" 2 40 220).length ≤ 2
  ∧ (extract_summary_bullets
      "aaaaaaaaaaaaaaaaaaaaaaaaaaaaaaaaaaaaaaaaaaaaa" 2 40 220).Pairwise
        (fun b1 b2 => bulletSig b1 ≠ bulletSig b2) :=
  ⟨(extract_summary_bullets_len_sig
      "aaaaaaaaaaaaaaaaaaaaaaaaaaaaaaaaaaaaaaaaaaaaa" 2 40 220).2.1 (by decide),
   (extract_summary_bullets_len_sig
      "aaaaaaaaaaaaaaaaaaaaaaaaaaaaaaaaaaaaaaaaaaaaa" 2 40 220).2.2 (by decide)⟩

/-- C2 core: if there is at least one sentence but the filtered walk accepts
none, the selector returns the first `k` raw sentences bulleted and
unfiltered; with zero sentences it returns the empty list; and the spec's
worked example. -/
theorem extract_summary_bullets_fallback (text : String) (k m M : ℕ) :
    (split_sentences text ≠ [] →
      selectLoop k m M (score_sentences (split_sentences text)) [] [] = [] →
      extract_summary_bullets text k m M =
        ((split_sentences text).take k).map (fun s => "• " ++ s))
  ∧ (split_sentences text = [] → extract_summary_bullets text k m M = [])
  ∧ extract_summary_bullets ("Short. Also short.") 3 40 220 =
      ["• Short.", "• Also short."] := by
  refine ⟨?_, ?_, by decide⟩
  · intro hne hloop
    rw [extract_summary_bullets_eq, if_pos ⟨hloop, hne⟩]
  · intro hnil
    rw [extract_summary_bullets_eq, if_neg (by intro hc; exact hc.2 hnil), hnil]
    show selectLoop k m M (score_sentences []) [] [] = []
    rw [show score_sentences [] = [] from rfl]
    rfl

/-- Witness for `extract_summary_bullets_fallback`: the fallback fires on the
spec's example input, and the empty-input case. -/
theorem extract_summary_bullets_fallback_witness :
    extract_summary_bullets ("Short. Also short.") 3 40 220 =
      ((split_sentences ("Short. Also short.")).take 3).map (fun s => "• " ++ s)
  ∧ extract_summary_bullets ("") 5 40 220 = [] :=
  ⟨(extract_summary_bullets_fallback ("Short. Also short.") 3 40 220).1
      (by decide) (by decide),
   (extract_summary_bullets_fallback ("") 5 40 220).2.1 (by decide)⟩

/-! ### Degenerate inputs -/

theorem isSpace_not_punct (c : Char) (h : isSpaceChar c = true) :
    punctChar c = false := by
  unfold isSpaceChar at h
  simp only [Bool.or_eq_true, beq_iff_eq] at h
  rcases h with ((((rfl | rfl) | rfl) | rfl) | rfl) | rfl <;> decide

theorem noPunctWsB_of_no_punct (l : List Char)
    (h : ∀ c ∈ l, punctChar c = false) : noPunctWsB l = true := by
  induction l with
  | nil => rfl
  | cons a t ih =>
    cases t with
    | nil => rfl
    | cons b r =>
      rw [show noPunctWsB (a :: b :: r) =
        (!(punctChar a && isSpaceChar b) && noPunctWsB (b :: r)) from rfl]
      rw [h a (List.mem_cons_self a _), ih (fun c hc => h c (List.mem_cons_of_mem a hc))]
      rfl

theorem subNonKept_all_kept (l : List Char) (h : ∀ c ∈ l, keptChar c = true) :
    subNonKept l = l := by
  unfold subNonKept
  induction l with
  | nil => rfl
  | cons c t ih =>
    rw [List.map_cons, if_pos (h c (List.mem_cons_self c t)),
      ih (fun c hc => h c (List.mem_cons_of_mem _ hc))]

theorem splitWsAux_all_space (l : List Char)
    (h : ∀ c ∈ l, isSpaceChar c = true) : splitWsAux l [] = [] := by
  induction l with
  | nil => rfl
  | cons c t ih =>
    rw [show splitWsAux (c :: t) [] = splitWsAux t [] from by
      simp [splitWsAux, h c (List.mem_cons_self c t)]]
    exact ih (fun c hc => h c (List.mem_cons_of_mem _ hc))

theorem clean_tokens_all_space (text : String)
    (h : text.data.all isSpaceChar = true) : clean_tokens text = [] := by
  have hmem := List.all_eq_true.1 h
  unfold clean_tokens
  rw [subNonKept_all_kept text.data
    (fun c hc => by unfold keptChar; rw [hmem c hc]; simp)]
  show ((splitWs text.data).map _).filter _ = []
  unfold splitWs
  rw [splitWsAux_all_space text.data hmem]
  rfl

theorem split_sentences_all_space (text : String)
    (h : text.data.all isSpaceChar = true) : split_sentences text = [] := by
  have hmem := List.all_eq_true.1 h
  have hnp : noPunctWsB text.data = true :=
    noPunctWsB_of_no_punct text.data (fun c hc => isSpace_not_punct c (hmem c hc))
  have hparts : splitPunctAux text.data (some []) = [text.data] := by
    have := splitPunctAux_no_split text.data [] (by simpa using hnp)
    simpa using this
  unfold split_sentences
  rw [hparts]
  have hnil : stripChars text.data = [] := (stripChars_eq_nil_iff text.data).2 h
  simp only [List.map_cons, List.map_nil, List.filter_cons, hnil]
  rw [if_neg (by simp)]
  rfl

/-- C9 amended: all five core functions are total Lean functions; on the
empty string and on whitespace-only strings each returns the empty sequence,
and a token-free global table makes the scorer return the empty sequence.
(The original claim fails for `extract_summary_bullets` on a token-free text
that still contains sentences: the fallback returns bullets, see the
counterexample.) -/
theorem core_degenerate_empty (text : String) (n k m M : ℕ) :
    (text.data.all isSpaceChar = true →
      clean_tokens text = [] ∧ keyword_top_n text n = [] ∧ split_sentences text = []
      ∧ score_sentences (split_sentences text) = []
      ∧ extract_summary_bullets text k m M = [])
  ∧ keyword_top_n ("") 5 = []
  ∧ (∀ sents : List String, clean_tokens (joinSpace sents) = [] →
      score_sentences sents = []) := by
  refine ⟨?_, by decide, ?_⟩
  · intro hsp
    have hct := clean_tokens_all_space text hsp
    have hss := split_sentences_all_space text hsp
    refine ⟨hct, ?_, hss, ?_, ?_⟩
    · show (isort countGe ((firstSeen (clean_tokens text)).map _)).take n = []
      rw [hct]
      show ([] : List (String × ℕ)).take n = []
      exact List.take_nil
    · rw [hss]
      decide
    · rw [extract_summary_bullets_eq, hss]
      rw [if_neg (by intro hc; exact hc.2 rfl)]
      rfl
  · intro sents hct
    unfold score_sentences
    rw [if_pos hct]

/-- Witness for `core_degenerate_empty` on a whitespace-only input and an
all-stopword sentence list. -/
theorem core_degenerate_empty_witness :
    (clean_tokens ("  ") = [] ∧ keyword_top_n ("  ") 5 = [] ∧ split_sentences ("  ") = []
      ∧ score_sentences (split_sentences ("  ")) = []
      ∧ extract_summary_bullets ("  ") 3 40 220 = [])
  ∧ score_sentences ["the"] = [] :=
  ⟨(core_degenerate_empty ("  ") 5 3 40 220).1 (by decide),
   (core_degenerate_empty ("  ") 5 3 40 220).2.2 ["the"] (by decide)⟩

/-- C9 counterexample: `"the. and."` has no tokens (both words are
stopwords), yet `extract_summary_bullets` returns two fallback bullets, not
the empty sequence. -/
theorem core_degenerate_C9_counterexample :
    clean_tokens ("the. and.") = []
  ∧ extract_summary_bullets ("the. and.") 5 40 220 = ["• the.", "• and."]
  ∧ extract_summary_bullets ("the. and.") 5 40 220 ≠ [] :=
  ⟨by decide, by decide, by decide⟩
